import Mathlib

/-!
Verification of the gouda barcode-decoding core against its specification.

The definitions below are a shallow embedding of
`src/gouda/strategies/roi/decode.py` (the region-of-interest `Decoder`) and
`src/gouda/scripts/decode_barcodes.py` (the `decode` traversal driver and the
`RenameVisitor` sink).  Machine pixels are modelled as `Nat` with explicit
saturation, fallible Python code as `Except`/flags, and the filesystem as an
explicit association list threaded through the rename sink.
-/

namespace Gouda

/-! ## Shared data model

`Sym` models the raw objects returned by a decoding engine (duck-typed values
with `.type` and `.data`); `Barcode` models `gouda.barcode.Barcode`, built by
`Barcode(b.type, b.data)` in `Decoder._compute_barcodes`.  Payloads are
modelled as already-decoded text. -/

structure Sym where
  type : String
  data : String
deriving DecidableEq

structure Barcode where
  type : String
  data : String
deriving DecidableEq

/-- A candidate rectangle; `rect.coordinates` in the source unpacks as
`left, top, right, bottom`. -/
structure Rect where
  left : Nat
  top : Nat
  right : Nat
  bottom : Nat
deriving DecidableEq

/-- A single-channel 8-bit image: rows of pixel values (each intended `< 256`). -/
abbrev Grey := List (List Nat)

/-- An image as loaded from disk.  `grey8` models the source test
`'uint8' == img.dtype and 2 == len(img.shape)`; when it holds, `px` is the
pixel grid used directly, otherwise the image is first converted to grey by
an external `cvtColor`-like function. -/
structure Img where
  grey8 : Bool
  px : Grey

/-- Greyscale conversion: `cv2.cvtColor(img, cv2.COLOR_BGR2GRAY)` is an external collaborator; a
conversion function is passed in as a parameter.  This mirrors lines 31-34 of
`decode.py`: convert only when the image is not already 8-bit single channel. -/
def greyOf (cvt : Img → Grey) (img : Img) : Grey :=
  if img.grey8 then img.px else cvt img

/-- Cropping, `img[top:bottom, left:right]` — numpy slicing on rows then columns. -/
def cropImg (g : Grey) (r : Rect) : Grey :=
  ((g.drop r.top).take (r.bottom - r.top)).map
    (fun row => (row.drop r.left).take (r.right - r.left))

/-! ## Contrast remap (`decode.py` lines 52-56)

`cv2.compare(crop, 0x80, CMP_GE)` yields a mask of `255` where the pixel is
`≥ 0x80` and `0` elsewhere; `bitwise_not` flips it; the masked `add`/`subtract`
calls write the saturating result where the mask is non-zero and leave `0`
elsewhere (the freshly created destination), and the final `cv2.add`
recombines the two half-images with saturation at 255.  `Nat` subtraction is
truncated at 0, matching unsigned saturation at the lower boundary. -/

def cmpGE (p t : Nat) : Nat := if t ≤ p then 255 else 0

def maskNot (m : Nat) : Nat := 255 - m

def satAdd (a b : Nat) : Nat := min (a + b) 255

def addMasked (p c m : Nat) : Nat := if m = 0 then 0 else satAdd p c

def subMasked (p c m : Nat) : Nat := if m = 0 then 0 else p - c

def contrastPixel (p : Nat) : Nat :=
  let bigmask := cmpGE p 0x80
  let smallmask := maskNot bigmask
  let big := addMasked p 0x10 bigmask
  let small := subMasked p 0x5a smallmask
  satAdd big small

def contrastImg (g : Grey) : Grey := g.map (fun row => row.map contrastPixel)

/-! ## Per-candidate decode (`Decoder._compute_barcodes`, lines 37-57)

The unsharp mask (`GaussianBlur` + `addWeighted`) is an external OpenCV
computation and is passed in abstractly as `sharpen`.  The second component of
the result counts engine invocations for this candidate (1 if the sharpened
crop decoded, 2 if the contrast fallback ran). -/

def candidateDecode (sharpen : Grey → Grey) (engine : Grey → List Sym)
    (g : Grey) (r : Rect) : List Sym × Nat :=
  let crop := cropImg g r
  let sharp := sharpen crop
  let decoded := engine sharp
  if decoded = [] then (engine (contrastImg sharp), 2) else (decoded, 1)

/-- The `Decoder` object of `decode.py`: `__init__` stores the image, the
candidate list and the engine, and initialises `_barcodes` to `None`
(the `expected` parameter is stored nowhere and is omitted). -/
structure Decoder where
  img : Img
  candidates : List Rect
  barcodes : Option (List Barcode)
  engine : Grey → List Sym

def Decoder.init (img : Img) (candidates : List Rect)
    (engine : Grey → List Sym) : Decoder :=
  ⟨img, candidates, none, engine⟩

/-- Model of `Decoder._compute_barcodes`: normalise to grey once, then loop over the
candidates appending the wrapped symbols of each.  The second component is the
total number of engine invocations. -/
def computeBarcodes (cvt : Img → Grey) (sharpen : Grey → Grey)
    (d : Decoder) : List Barcode × Nat :=
  let g := greyOf cvt d.img
  d.candidates.foldl
    (fun acc rect =>
      let r := candidateDecode sharpen d.engine g rect
      (acc.1 ++ r.1.map (fun b => Barcode.mk b.type b.data), acc.2 + r.2))
    ([], 0)

/-- Model of `Decoder.__iter__`: compute and cache on first access (`_barcodes is None`),
then return the cached sequence.  Returns the sequence, the updated object and
the number of engine invocations performed by this call. -/
def Decoder.iterBarcodes (cvt : Img → Grey) (sharpen : Grey → Grey)
    (d : Decoder) : List Barcode × Decoder × Nat :=
  match d.barcodes with
  | none =>
    let r := computeBarcodes cvt sharpen d
    (r.1, { d with barcodes := some r.1 }, r.2)
  | some bs => (bs, d, 0)

/-! ## Theorems about the region decoder -/

theorem computeFold_fst (sharpen : Grey → Grey) (eng : Grey → List Sym) (g : Grey) :
    ∀ (cands : List Rect) (acc : List Barcode × Nat),
      (cands.foldl
        (fun acc rect =>
          let r := candidateDecode sharpen eng g rect
          (acc.1 ++ r.1.map (fun b => Barcode.mk b.type b.data), acc.2 + r.2))
        acc).1
      = acc.1 ++ (cands.map (fun rect =>
          ((candidateDecode sharpen eng g rect).1).map
            (fun b => Barcode.mk b.type b.data))).flatten
  | [], acc => by simp
  | c :: cs, acc => by
    simp only [List.foldl_cons, List.map_cons, List.flatten]
    rw [computeFold_fst sharpen eng g cs]
    simp [List.append_assoc]

/-- C5: whenever the sharpened crop of a candidate yields zero symbols, the
contrast remap is applied exactly once and the engine re-invoked on the
remapped crop (two engine calls in total for the candidate); the remap adds
`0x10` to every pixel `≥ 0x80` and subtracts `0x5a` from every pixel `< 0x80`,
with unsigned saturation at 0 and 255. -/
theorem contrast_remap_once_saturating :
    (∀ p : Nat, contrastPixel p = if 0x80 ≤ p then min (p + 0x10) 255 else p - 0x5a)
    ∧ ∀ (sharpen : Grey → Grey) (engine : Grey → List Sym) (g : Grey) (r : Rect),
        engine (sharpen (cropImg g r)) = [] →
        candidateDecode sharpen engine g r
          = (engine (contrastImg (sharpen (cropImg g r))), 2) := by
  constructor
  · intro p
    by_cases h : 0x80 ≤ p
    · simp only [contrastPixel, cmpGE, maskNot, addMasked, subMasked, satAdd, if_pos h]
      norm_num
    · simp only [contrastPixel, cmpGE, maskNot, addMasked, subMasked, satAdd, if_neg h]
      norm_num
      omega
  · intro sharpen engine g r h
    simp [candidateDecode, h]

theorem contrast_remap_once_saturating_wit :
    candidateDecode (fun g => g) (fun _ => ([] : List Sym)) [[5]] ⟨0, 0, 1, 1⟩
      = ([], 2) :=
  contrast_remap_once_saturating.2 (fun g => g) (fun _ => []) [[5]] ⟨0, 0, 1, 1⟩ rfl

/-- C6: the decoded-barcode sequence of a fresh `Decoder` is computed on first
access and cached: a second access returns the same sequence, performs zero
engine invocations, and leaves the decoder unchanged — including when the
first computation produced zero barcodes. -/
theorem decoder_iter_memoized (cvt : Img → Grey) (sharpen : Grey → Grey)
    (img : Img) (cands : List Rect) (eng : Grey → List Sym) :
    let first := Decoder.iterBarcodes cvt sharpen (Decoder.init img cands eng)
    let second := Decoder.iterBarcodes cvt sharpen first.2.1
    second.1 = first.1 ∧ second.2.2 = 0 ∧ second.2.1 = first.2.1 :=
  ⟨rfl, rfl, rfl⟩

/-! ## Traversal driver (`decode_barcodes.py`, `decode`, lines 26-56)

A strategy is called as `strategy(img, engine)`; it may raise
(modelled `Except.error`), return a falsy value such as `None`
(modelled `Except.ok none`) or return a two-element outcome list
`[strategy_name, barcodes]` (modelled `Except.ok (some ...)`; such a list is
truthy in Python regardless of its contents).  A sink's `result(path, result)`
call either returns normally (`false`) or raises (`true`). -/

/-- A `[strategy_name, barcodes]` result list. -/
abbrev Outcome := Option String × List Barcode

abbrev Engine := Grey → List Sym

abbrev Strategy := Img → Engine → Except Unit (Option Outcome)

abbrev Sink := String → Outcome → Bool

/-- The strategy loop of `decode` (lines 43-50): try each strategy in order;
`if result:` takes the first truthy return value; the `for`/`else` clause
yields `[None, []]` when every strategy returned a falsy value. -/
def runChain (engine : Engine) : List Strategy → Img → Except Unit Outcome
  | [], _ => .ok (none, [])
  | s :: rest, img =>
    match s img engine with
    | .error e => .error e
    | .ok (some r) => .ok r
    | .ok none => runChain engine rest img

/-- Observable driver events: a sink receiving `result(path, outcome)`
(sinks identified by registration index), or the per-file error log
(`print('Error processing [...]')` + traceback). -/
inductive Ev
  | sinkCall (sink : Nat) (path : String) (outcome : Outcome)
  | errorLog (path : String)
deriving DecidableEq

/-- Fan-out, `for visitor in visitors: visitor.result(p, result)` — each sink receives
the call in registration order; a raising sink (which did receive the call)
stops the loop, reported by the `Bool`. -/
def fanOut (p : String) (r : Outcome) : List Sink → Nat → List Ev × Bool
  | [], _ => ([], false)
  | s :: rest, i =>
    if s p r then ([.sinkCall i p r], true)
    else
      let rec' := fanOut p r rest (i + 1)
      (.sinkCall i p r :: rec'.1, rec'.2)

/-- What `read_image(p, read_greyscale)` did for one file: raised, returned
`None` (not an image), or returned an image. -/
inductive LoadR
  | loadError
  | notImage
  | loaded (img : Img)

/-- The per-file body of `decode` (lines 35-56): everything inside the `try`,
with the `except Exception` handler producing a single error log event. -/
def processFile (strategies : List Strategy) (engine : Engine)
    (sinks : List Sink) (p : String) (load : LoadR) : List Ev :=
  match load with
  | .loadError => [.errorLog p]
  | .notImage =>
    let f := fanOut p (none, []) sinks 0
    if f.2 then f.1 ++ [.errorLog p] else f.1
  | .loaded img =>
    match runChain engine strategies img with
    | .error _ => [.errorLog p]
    | .ok r =>
      let f := fanOut p r sinks 0
      if f.2 then f.1 ++ [.errorLog p] else f.1

/-- A directory tree as the traversal sees it.  For a directory, `ok = false`
means iterating its entries raises (permission/symlink anomaly inside
`sorted(p.iterdir())`); its `children` are then unreachable. -/
inductive Tree
  | file (name : String) (load : LoadR)
  | dir (name : String) (ok : Bool) (children : List Tree)

def Tree.name : Tree → String
  | .file n _ => n
  | .dir n _ _ => n

/-- Lexicographic code-point comparison of character lists — Python's string
ordering, used by `sorted(paths)` on sibling paths. -/
def leB : List Char → List Char → Bool
  | [], _ => true
  | _ :: _, [] => false
  | c :: cs, d :: ds =>
    if c.toNat < d.toNat then true
    else if d.toNat < c.toNat then false
    else leB cs ds

def strLeB (a b : String) : Bool := leB a.data b.data

theorem leB_total : ∀ a b : List Char, leB a b = true ∨ leB b a = true
  | [], _ => Or.inl rfl
  | _ :: _, [] => Or.inr rfl
  | x :: xs, y :: ys => by
    simp only [leB]
    rcases Nat.lt_trichotomy x.toNat y.toNat with h | h | h
    · left; simp [h]
    · have h1 : ¬ x.toNat < y.toNat := by omega
      have h2 : ¬ y.toNat < x.toNat := by omega
      rcases leB_total xs ys with ih | ih
      · left; simp [h1, h2, ih]
      · right; simp [h1, h2, ih]
    · right; simp [h]

theorem leB_trans : ∀ a b c : List Char,
    leB a b = true → leB b c = true → leB a c = true
  | [], _, _, _, _ => rfl
  | _ :: _, [], _, h, _ => by simp [leB] at h
  | _ :: _, _ :: _, [], _, h => by simp [leB] at h
  | x :: xs, y :: ys, z :: zs, h1, h2 => by
    simp only [leB] at h1 h2 ⊢
    by_cases hxy : x.toNat < y.toNat
    · by_cases hyz : y.toNat < z.toNat
      · simp [Nat.lt_trans hxy hyz]
      · rw [if_neg hyz] at h2
        by_cases hzy : z.toNat < y.toNat
        · rw [if_pos hzy] at h2; exact absurd h2 (by simp)
        · have hxz : x.toNat < z.toNat := by omega
          simp [hxz]
    · rw [if_neg hxy] at h1
      by_cases hyx : y.toNat < x.toNat
      · rw [if_pos hyx] at h1; exact absurd h1 (by simp)
      · rw [if_neg hyx] at h1
        by_cases hyz : y.toNat < z.toNat
        · have hxz : x.toNat < z.toNat := by omega
          simp [hxz]
        · rw [if_neg hyz] at h2
          by_cases hzy : z.toNat < y.toNat
          · rw [if_pos hzy] at h2; exact absurd h2 (by simp)
          · rw [if_neg hzy] at h2
            have hxz : ¬ x.toNat < z.toNat := by omega
            have hzx : ¬ z.toNat < x.toNat := by omega
            rw [if_neg hxz, if_neg hzx]
            exact leB_trans xs ys zs h1 h2

/-- Path ordering at one directory level: all entries share the parent, so
`sorted(paths)` compares the final name component. -/
def treeLE (a b : Tree) : Prop := strLeB a.name b.name = true

instance : DecidableRel treeLE := fun a b =>
  inferInstanceAs (Decidable (strLeB a.name b.name = true))

instance : IsTotal Tree treeLE := ⟨fun a b => leB_total a.name.data b.name.data⟩

instance : IsTrans Tree treeLE :=
  ⟨fun _ _ _ h h' => leB_trans _ _ _ h h'⟩

/-- `sorted(paths)` — a stable sort by name. -/
def sortByName (l : List Tree) : List Tree := l.insertionSort treeLE

theorem sizeOf_sortByName (l : List Tree) : sizeOf (sortByName l) = sizeOf l :=
  (List.perm_insertionSort treeLE l).sizeOf_eq_sizeOf

/-- The body of `decode` applied to an already-sorted entry list: files run
the guarded per-file body; a directory recurses into its (sorted) children.
The `Bool` is `true` when an uncaught exception is propagating: a failing
`sorted(p.iterdir())` aborts everything, discarding no events already
produced.  `decode` itself is `decodeTop` below, which sorts its argument. -/
def decodeF (S : List Strategy) (E : Engine) (V : List Sink) :
    List Tree → List Ev × Bool
  | [] => ([], false)
  | .file n load :: ts =>
    let evs := processFile S E V n load
    let rest := decodeF S E V ts
    (evs ++ rest.1, rest.2)
  | .dir _ false _ :: _ => ([], true)
  | .dir _ true cs :: ts =>
    let inner := decodeF S E V (sortByName cs)
    if inner.2 then (inner.1, true)
    else
      let rest := decodeF S E V ts
      (inner.1 ++ rest.1, rest.2)
termination_by l => sizeOf l
decreasing_by
  all_goals simp_wf
  all_goals try rw [sizeOf_sortByName]
  all_goals omega

/-- Model of `decode(paths, strategies, engine, visitors, read_greyscale)`. -/
def decodeTop (S : List Strategy) (E : Engine) (V : List Sink)
    (paths : List Tree) : List Ev × Bool :=
  decodeF S E V (sortByName paths)

/-! ## Theorems about the strategy chain and driver -/

/-- C1 counterexample: a strategy that returns the outcome
`['roi', []]` — empty barcodes but non-null strategy name — is truthy as a
Python value, so `decode`'s chain stops there and takes it as the final
result instead of proceeding to the next strategy (which here would have
produced a barcode). -/
theorem chain_stops_on_empty_barcodes_outcome :
    runChain (fun _ => [])
        [fun _ _ => .ok (some (some "roi", [])),
         fun _ _ => .ok (some (some "resize", [Barcode.mk "qrcode" "hello"]))]
        ⟨true, [[0]]⟩
      = .ok (some "roi", [])
    ∧ ((some "roi", ([] : List Barcode))
        ≠ ((some "resize" : Option String), [Barcode.mk "qrcode" "hello"])) :=
  ⟨rfl, by decide⟩

/-- C1 amended: the chain tests the strategy's return value for Python
truthiness.  A returned `[strategy_name, barcodes]` outcome is truthy even
when `barcodes` is empty, so it becomes the final result; only a falsy return
(such as `None`) makes the chain proceed to the next strategy; if every
strategy returns a falsy value the final result is `[None, []]`. -/
theorem chain_python_truthiness (engine : Engine) (s : Strategy)
    (rest : List Strategy) (img : Img) :
    (∀ r : Outcome, s img engine = .ok (some r) →
        runChain engine (s :: rest) img = .ok r)
    ∧ (s img engine = .ok none →
        runChain engine (s :: rest) img = runChain engine rest img)
    ∧ runChain engine [] img = .ok (none, []) := by
  refine ⟨fun r h => ?_, fun h => ?_, rfl⟩
  · simp [runChain, h]
  · simp [runChain, h]

theorem chain_python_truthiness_wit :
    runChain (fun _ => []) [fun _ _ => .ok (some (some "roi", [Barcode.mk "qrcode" "x"]))]
        ⟨true, [[0]]⟩ = .ok (some "roi", [Barcode.mk "qrcode" "x"])
    ∧ runChain (fun _ => []) [fun _ _ => .ok none] ⟨true, [[0]]⟩
        = runChain (fun _ => []) [] ⟨true, [[0]]⟩ :=
  ⟨(chain_python_truthiness (fun _ => []) _ [] ⟨true, [[0]]⟩).1 _ rfl,
   (chain_python_truthiness (fun _ => []) _ [] ⟨true, [[0]]⟩).2.1 rfl⟩

/-- C2 counterexample: a directory whose listing raises aborts the whole run
— the error is not caught, traversal does not continue with the next entry
(file `"b"` is never processed and no sink is called for it). -/
theorem dir_listing_error_aborts_run :
    decodeTop [] (fun _ => []) [fun _ _ => false]
        [Tree.dir "a" false [], Tree.file "b" .notImage]
      = ([], true) := by
  have hs : sortByName [Tree.dir "a" false [], Tree.file "b" .notImage]
      = [Tree.dir "a" false [], Tree.file "b" .notImage] := rfl
  rw [decodeTop, hs]
  simp [decodeF]

/-- C2 amended: an error raised while loading an image or while running the
strategy chain for one file is caught and logged with the offending path, no
sink receives a call for that file, and traversal continues with the next
entry; but an anomaly raised while enumerating a directory's entries is not
caught — it propagates and aborts the run. -/
theorem per_file_errors_isolated_listing_errors_fatal
    (S : List Strategy) (E : Engine) (V : List Sink) :
    (∀ (p : String) (ts : List Tree),
        decodeF S E V (.file p .loadError :: ts)
          = (Ev.errorLog p :: (decodeF S E V ts).1, (decodeF S E V ts).2))
    ∧ (∀ (p : String) (img : Img) (ts : List Tree),
        runChain E S img = .error () →
        decodeF S E V (.file p (.loaded img) :: ts)
          = (Ev.errorLog p :: (decodeF S E V ts).1, (decodeF S E V ts).2))
    ∧ (∀ (n : String) (cs ts : List Tree),
        decodeF S E V (.dir n false cs :: ts) = ([], true)) := by
  refine ⟨fun p ts => ?_, fun p img ts h => ?_, fun n cs ts => ?_⟩
  · simp [decodeF, processFile]
  · simp [decodeF, processFile, h]
  · simp [decodeF]

theorem per_file_errors_isolated_listing_errors_fatal_wit :
    decodeF [fun _ _ => .error ()] (fun _ => []) [fun _ _ => false]
        [Tree.file "b" (.loaded ⟨true, [[0]]⟩)]
      = ([Ev.errorLog "b"], false) := by
  have h := (per_file_errors_isolated_listing_errors_fatal
      [fun _ _ => .error ()] (fun _ => []) [fun _ _ => false]).2.1
      "b" ⟨true, [[0]]⟩ [] rfl
  rw [h]
  simp [decodeF]

theorem fanOut_no_raise (p : String) (r : Outcome) :
    ∀ (sinks : List Sink) (k : Nat), (∀ s ∈ sinks, s p r = false) →
      fanOut p r sinks k
        = ((List.range' k sinks.length).map (fun j => Ev.sinkCall j p r), false)
  | [], k, _ => by simp [fanOut]
  | s :: rest, k, h => by
    have hs : s p r = false := h s (by simp)
    have ih := fanOut_no_raise p r rest (k + 1)
      (fun x hx => h x (by simp [hx]))
    simp [fanOut, hs, ih, List.range'_succ]

/-- C9: a file whose loading yields no image produces the outcome
`[None, []]` and forwards it to every sink; and in general every processed
file results in exactly one `(path, outcome)` call per sink, with the same
outcome value, in sink-registration order (sinks assumed to return
normally). -/
theorem empty_outcome_and_single_fanout (S : List Strategy) (E : Engine)
    (V : List Sink) (p : String) :
    ((∀ s ∈ V, s p (none, []) = false) →
      processFile S E V p .notImage
        = (List.range V.length).map
            (fun j => Ev.sinkCall j p ((none : Option String), ([] : List Barcode))))
    ∧ ∀ (img : Img) (r : Outcome),
        runChain E S img = .ok r → (∀ s ∈ V, s p r = false) →
        processFile S E V p (.loaded img)
          = (List.range V.length).map (fun j => Ev.sinkCall j p r) := by
  constructor
  · intro h
    have hf := fanOut_no_raise p (none, []) V 0 h
    simp [processFile, hf, List.range_eq_range']
  · intro img r hc h
    have hf := fanOut_no_raise p r V 0 h
    simp [processFile, hc, hf, List.range_eq_range']

theorem empty_outcome_and_single_fanout_wit :
    processFile [] (fun _ => []) [fun _ _ => false, fun _ _ => false] "a" .notImage
      = [Ev.sinkCall 0 "a" (none, []), Ev.sinkCall 1 "a" (none, [])] := by
  have h := (empty_outcome_and_single_fanout []
      (fun _ => []) [fun _ _ => false, fun _ _ => false] "a").1
    (by intro s hs
        simp only [List.mem_cons, List.not_mem_nil, or_false] at hs
        rcases hs with rfl | rfl <;> rfl)
  exact h.trans rfl

theorem fanOut_raise (p : String) (r : Outcome) :
    ∀ (V1 : List Sink) (bad : Sink) (V2 : List Sink) (k : Nat),
      (∀ s ∈ V1, s p r = false) → bad p r = true →
      fanOut p r (V1 ++ bad :: V2) k
        = ((List.range' k (V1.length + 1)).map (fun j => Ev.sinkCall j p r), true)
  | [], bad, V2, k, _, hb => by simp [fanOut, hb, List.range'_succ]
  | s :: rest, bad, V2, k, h, hb => by
    have hs : s p r = false := h s (by simp)
    have ih := fanOut_raise p r rest bad V2 (k + 1)
      (fun x hx => h x (by simp [hx])) hb
    simp [fanOut, hs, ih, List.range'_succ]

/-- C10: an exception raised by a sink's `result(path, outcome)` call is
caught by the same per-file handler as loading and strategy errors: the
raising sink receives its call, sinks registered after it receive none, the
error is logged with the path, and traversal continues with the next entry. -/
theorem sink_error_isolated (S : List Strategy) (E : Engine)
    (V1 : List Sink) (bad : Sink) (V2 : List Sink) (p : String) (img : Img)
    (r : Outcome) (ts : List Tree) (hc : runChain E S img = .ok r)
    (h1 : ∀ s ∈ V1, s p r = false) (hb : bad p r = true) :
    processFile S E (V1 ++ bad :: V2) p (.loaded img)
        = ((List.range (V1.length + 1)).map (fun j => Ev.sinkCall j p r))
            ++ [Ev.errorLog p]
    ∧ decodeF S E (V1 ++ bad :: V2) (.file p (.loaded img) :: ts)
        = (processFile S E (V1 ++ bad :: V2) p (.loaded img)
            ++ (decodeF S E (V1 ++ bad :: V2) ts).1,
           (decodeF S E (V1 ++ bad :: V2) ts).2) := by
  constructor
  · have hf := fanOut_raise p r V1 bad V2 0 h1 hb
    simp [processFile, hc, hf, List.range_eq_range']
  · simp [decodeF]

theorem sink_error_isolated_wit :
    processFile [fun _ _ => .ok (some (some "roi", []))] (fun _ => [])
        [fun _ _ => true, fun _ _ => false] "a" (.loaded ⟨true, [[0]]⟩)
      = [Ev.sinkCall 0 "a" (some "roi", []), Ev.errorLog "a"] := by
  have h := (sink_error_isolated [fun _ _ => .ok (some (some "roi", []))]
      (fun _ => []) [] (fun _ _ => true) [fun _ _ => false] "a" ⟨true, [[0]]⟩
      (some "roi", []) [] rfl
      (by intro s hs; simp at hs) rfl).1
  simp only [List.nil_append] at h
  exact h.trans rfl

/-! ## Determinism of the traversal (C8)

Two runs over an unchanged tree may enumerate directory entries in different
orders; "the same tree" is captured by equality of a canonical form in which
every directory's children are sorted. -/

mutual

def normalizeTree : Tree → Tree
  | .file n load => .file n load
  | .dir n ok cs => .dir n ok (sortByName (normalizeForestAux cs))

def normalizeForestAux : List Tree → List Tree
  | [] => []
  | t :: ts => normalizeTree t :: normalizeForestAux ts

end

/-- Canonical form of an enumerated list of paths. -/
def normalizeForest (l : List Tree) : List Tree :=
  sortByName (normalizeForestAux l)

theorem name_normalizeTree (t : Tree) : (normalizeTree t).name = t.name := by
  cases t <;> simp [normalizeTree, Tree.name]

theorem normAux_eq_map (l : List Tree) :
    normalizeForestAux l = l.map normalizeTree := by
  induction l with
  | nil => simp [normalizeForestAux]
  | cons t ts ih => simp [normalizeForestAux, ih]

theorem sort_normAux_comm (l : List Tree) :
    sortByName (normalizeForestAux l) = normalizeForestAux (sortByName l) := by
  rw [normAux_eq_map, normAux_eq_map]
  unfold sortByName
  exact (List.map_insertionSort treeLE treeLE normalizeTree l
    (fun a _ b _ => by simp [treeLE, name_normalizeTree])).symm

theorem sortByName_idem (l : List Tree) :
    sortByName (sortByName l) = sortByName l :=
  (List.sorted_insertionSort treeLE l).insertionSort_eq

theorem decodeF_normAux (S : List Strategy) (E : Engine) (V : List Sink) :
    ∀ l : List Tree, decodeF S E V (normalizeForestAux l) = decodeF S E V l
  | [] => by simp [normalizeForestAux]
  | .file n load :: ts => by
    have ih := decodeF_normAux S E V ts
    simp [normalizeForestAux, normalizeTree, decodeF, ih]
  | .dir n false cs :: ts => by
    simp [normalizeForestAux, normalizeTree, decodeF]
  | .dir n true cs :: ts => by
    have ih1 := decodeF_normAux S E V (sortByName cs)
    have ih2 := decodeF_normAux S E V ts
    have h1 : decodeF S E V (sortByName (sortByName (normalizeForestAux cs)))
        = decodeF S E V (sortByName cs) := by
      rw [sortByName_idem, sort_normAux_comm, ih1]
    simp [normalizeForestAux, normalizeTree, decodeF, h1, ih2]
termination_by l => sizeOf l
decreasing_by
  all_goals simp_wf
  all_goals try rw [sizeOf_sortByName]
  all_goals omega

theorem decodeF_norm (S : List Strategy) (E : Engine) (V : List Sink)
    (l : List Tree) : decodeF S E V (normalizeForest l) = decodeTop S E V l := by
  rw [normalizeForest, sort_normAux_comm, decodeF_normAux, decodeTop]

/-- C8: the traversal visits entries in sorted order at every level, so two
runs of `decode` over an unchanged directory tree (the same tree, however its
directories happen to be enumerated) produce identical event sequences —
in particular identical sink-call sequences. -/
theorem traversal_deterministic (S : List Strategy) (E : Engine) (V : List Sink)
    (l1 l2 : List Tree) (h : normalizeForest l1 = normalizeForest l2) :
    decodeTop S E V l1 = decodeTop S E V l2 := by
  rw [← decodeF_norm S E V l1, ← decodeF_norm S E V l2, h]

theorem traversal_deterministic_wit :
    decodeTop [] (fun _ => []) [fun _ _ => false]
        [Tree.dir "d" true [Tree.file "b" .notImage, Tree.file "a" .notImage]]
      = decodeTop [] (fun _ => []) [fun _ _ => false]
        [Tree.dir "d" true [Tree.file "a" .notImage, Tree.file "b" .notImage]] :=
  traversal_deterministic [] (fun _ => []) [fun _ _ => false]
    [Tree.dir "d" true [Tree.file "b" .notImage, Tree.file "a" .notImage]]
    [Tree.dir "d" true [Tree.file "a" .notImage, Tree.file "b" .notImage]]
    rfl

/-! ## Rename sink (`RenameVisitor`, `decode_barcodes.py` lines 113-172)

Paths are modelled as directory + stem + extension (`pathlib`'s `stem` and
`suffix`; `with_name(value + path.suffix)` keeps the directory).  The
filesystem is an association list from paths to file contents (a content tag,
preserved by rename and copy).  `shutil.copy2` is `fsCopy`; its
metadata-preserving behaviour is part of the primitive. -/

structure FPath where
  dir : String
  stem : String
  ext : String
deriving DecidableEq

/-- The `path.name` property — final component, stem plus extension. -/
def FPath.name (p : FPath) : String := p.stem ++ p.ext

abbrev FS := List (FPath × Nat)

def fsGet (fs : FS) (p : FPath) : Option Nat :=
  (fs.find? (fun e => e.1 == p)).map (fun e => e.2)

/-- Existence test `path.is_file()`. -/
def isFile (fs : FS) (p : FPath) : Bool := (fsGet fs p).isSome

def fsDel (fs : FS) (p : FPath) : FS := fs.filter (fun e => !(e.1 == p))

def fsSet (fs : FS) (p : FPath) (v : Nat) : FS := (p, v) :: fsDel fs p

/-- Rename, `path.rename(dest)` — the content moves to `dest`, the source is gone. -/
def fsRename (fs : FS) (src dst : FPath) : FS :=
  match fsGet fs src with
  | some v => fsSet (fsDel fs src) dst v
  | none => fs

/-- Copy, `shutil.copy2(source, dest)` — the content is duplicated at `dest`. -/
def fsCopy (fs : FS) (src dst : FPath) : FS :=
  match fsGet fs src with
  | some v => fsSet fs dst v
  | none => fs

/-- The `self.suffix` mapping: name of the candidate destination to the next
counter value its `count` iterator will yield.  `defaultdict(partial(count,
start=1))` seeds every name at 1 on first use. -/
abbrev SuffixMap := String → Nat

def suffixInit : SuffixMap := fun _ => 1

/-- Sanitization `re.sub('[^a-zA-Z0-9_-]', '_', value)` applied per character. -/
def sanChar (c : Char) : Char :=
  if c.isAlpha || c.isDigit || c == '_' || c == '-' then c else '_'

def sanitize (s : String) : String := ⟨s.data.map sanChar⟩

/-- Destination name `path.with_name('{value}{suffix}')` — sanitized values contain no dot, so
the stem of the result is the value itself. -/
def withValueName (p : FPath) (v : String) : FPath := ⟨p.dir, v, p.ext⟩

/-- Suffixed name `path.with_name('{stem}-{n}{suffix}')`. -/
def suffixedName (p : FPath) (n : Nat) : FPath :=
  ⟨p.dir, p.stem ++ "-" ++ toString n, p.ext⟩

/-- The `while destination.is_file()` loop of `RenameVisitor._destination`:
candidates are always derived from the original candidate `p`; each retry
consumes `next(self.suffix[p.name])`.  Each continuing iteration consumes a
distinct existing file, so `fs.length + 1` iterations always suffice. -/
def destLoop (p : FPath) : Nat → FS → SuffixMap → FPath → FPath × SuffixMap
  | 0, _, m, d => (d, m)
  | fuel + 1, fs, m, d =>
    if isFile fs d then
      let n := m p.name
      destLoop p fuel fs (fun k => if k = p.name then n + 1 else m k)
        (suffixedName p n)
    else (d, m)

/-- Model of `RenameVisitor._destination`: unaltered unless `avoid_collisions`. -/
def destination (avoid : Bool) (fs : FS) (m : SuffixMap) (p : FPath) :
    FPath × SuffixMap :=
  if avoid then destLoop p (fs.length + 1) fs m p else (p, m)

/-- The per-value report lines printed by `RenameVisitor.result`. -/
inductive RAct
  | noBarcodes
  | alreadyNamed (d : FPath)
  | destTaken (d : FPath)
  | renamed (src d : FPath)
  | copied (src d : FPath)
deriving DecidableEq

/-- The `for value in values` loop of `RenameVisitor.result` (lines 154-172):
`fd` is `first_destination` (set after the first iteration whatever action was
taken); the first iteration renames, later ones copy from the first
destination. -/
def renameLoop (avoid : Bool) (path : FPath) :
    List String → Option FPath → FS → SuffixMap → FS × SuffixMap × List RAct
  | [], _, fs, m => (fs, m, [])
  | v :: vs, fd, fs, m =>
    let d0 := withValueName path v
    let dm := destination avoid fs m d0
    let dest := dm.1
    let source := fd.getD path
    let step : FS × RAct :=
      if source = dest then (fs, .alreadyNamed dest)
      else if isFile fs dest then (fs, .destTaken dest)
      else if fd.isNone then (fsRename fs path dest, .renamed path dest)
      else (fsCopy fs source dest, .copied source dest)
    let fd' := if fd.isNone then some dest else fd
    let rest := renameLoop avoid path vs fd' step.1 dm.2
    (rest.1, rest.2.1, step.2 :: rest.2.2)

/-- Model of `RenameVisitor.result(path, result)`: no barcodes is a report only;
otherwise sanitize every payload and run the rename/copy loop. -/
def renameResult (avoid : Bool) (fs : FS) (m : SuffixMap) (path : FPath)
    (res : Outcome) : FS × SuffixMap × List RAct :=
  if res.2 = [] then (fs, m, [.noBarcodes])
  else renameLoop avoid path (res.2.map (fun b => sanitize b.data)) none fs m

/-! ### Filesystem lemmas -/

theorem fsGet_cons (e : FPath × Nat) (t : FS) (q : FPath) :
    fsGet (e :: t) q = if e.1 = q then some e.2 else fsGet t q := by
  by_cases h : e.1 = q <;> simp [fsGet, List.find?_cons, h]

theorem fsGet_del (fs : FS) (p q : FPath) :
    fsGet (fsDel fs p) q = if q = p then none else fsGet fs q := by
  induction fs with
  | nil => by_cases h : q = p <;> simp [fsDel, fsGet, h]
  | cons e t ih =>
    by_cases h1 : e.1 = p
    · rw [show fsDel (e :: t) p = fsDel t p by simp [fsDel, List.filter_cons, h1], ih]
      by_cases h2 : q = p
      · simp [h2]
      · have he : e.1 ≠ q := fun hq => h2 (by rw [← hq, h1])
        rw [if_neg h2, if_neg h2, fsGet_cons, if_neg he]
    · rw [show fsDel (e :: t) p = e :: fsDel t p by simp [fsDel, List.filter_cons, h1],
        fsGet_cons, fsGet_cons]
      by_cases h2 : e.1 = q
      · rw [if_pos h2, if_pos h2, if_neg]
        exact fun hq => h1 (h2 ▸ hq)
      · rw [if_neg h2, if_neg h2, ih]

theorem fsGet_set (fs : FS) (p : FPath) (v : Nat) (q : FPath) :
    fsGet (fsSet fs p v) q = if q = p then some v else fsGet fs q := by
  rw [fsSet, fsGet_cons, fsGet_del]
  by_cases h : q = p
  · simp [h]
  · rw [if_neg (fun hp => h hp.symm), if_neg h, if_neg h]

theorem destination_not_file (avoid : Bool) (fs : FS) (m : SuffixMap)
    (p : FPath) (h : isFile fs p = false) :
    destination avoid fs m p = (p, m) := by
  cases avoid <;> simp [destination, destLoop, h]

theorem destination_one_collision (fs : FS) (m : SuffixMap) (p : FPath)
    (h : isFile fs p = true)
    (h2 : isFile fs (suffixedName p (m p.name)) = false) :
    destination true fs m p
      = (suffixedName p (m p.name),
         fun k => if k = p.name then m p.name + 1 else m k) := by
  obtain ⟨n, hn⟩ : ∃ n, fs.length = n + 1 := by
    cases fs with
    | nil => simp [isFile, fsGet] at h
    | cons e t => exact ⟨t.length, rfl⟩
  simp [destination, hn, destLoop, h, h2]

/-- The destination paths `path.with_name(value + path.suffix)` computed for a
list of sanitized values. -/
def mkDests (p : FPath) (vs : List String) : List FPath :=
  vs.map (withValueName p)

/-- One unfolding step of `renameLoop`. -/
theorem renameLoop_cons (avoid : Bool) (path : FPath) (v : String)
    (vs : List String) (fd : Option FPath) (fs : FS) (m : SuffixMap) :
    renameLoop avoid path (v :: vs) fd fs m
      = (let d0 := withValueName path v
         let dm := destination avoid fs m d0
         let dest := dm.1
         let source := fd.getD path
         let step : FS × RAct :=
           if source = dest then (fs, .alreadyNamed dest)
           else if isFile fs dest then (fs, .destTaken dest)
           else if fd.isNone then (fsRename fs path dest, .renamed path dest)
           else (fsCopy fs source dest, .copied source dest)
         let fd' := if fd.isNone then some dest else fd
         let rest := renameLoop avoid path vs fd' step.1 dm.2
         (rest.1, rest.2.1, step.2 :: rest.2.2)) := rfl

/-- After the first iteration has set `first_destination = d1`, every further
value is copied from `d1` to its own fresh destination. -/
theorem renameLoop_copy (avoid : Bool) (p d1 : FPath) :
    ∀ (vs : List String) (fs : FS) (m : SuffixMap),
      (mkDests p vs).Nodup →
      (∀ d ∈ mkDests p vs, isFile fs d = false ∧ d ≠ d1) →
      isFile fs d1 = true →
      (renameLoop avoid p vs (some d1) fs m).2.2
          = (mkDests p vs).map (RAct.copied d1)
      ∧ (renameLoop avoid p vs (some d1) fs m).2.1 = m
      ∧ ∀ q, fsGet (renameLoop avoid p vs (some d1) fs m).1 q
          = if q ∈ mkDests p vs then fsGet fs d1 else fsGet fs q
  | [], fs, m, _, _, _ => by
    simp [renameLoop, mkDests]
  | v :: vs, fs, m, hnd, hf, hd1 => by
    have hcons : mkDests p (v :: vs) = withValueName p v :: mkDests p vs := rfl
    rw [hcons] at hnd hf
    obtain ⟨hdm, hnd'⟩ := List.nodup_cons.1 hnd
    obtain ⟨hdf, hdd1⟩ := hf _ (List.mem_cons_self _ _)
    have hf' : ∀ x ∈ mkDests p vs, isFile fs x = false ∧ x ≠ d1 :=
      fun x hx => hf x (List.mem_cons_of_mem _ hx)
    obtain ⟨c, hc⟩ : ∃ c, fsGet fs d1 = some c := by
      cases hcase : fsGet fs d1 with
      | none => simp [isFile, hcase] at hd1
      | some c => exact ⟨c, rfl⟩
    have hf1 : ∀ x ∈ mkDests p vs,
        isFile (fsSet fs (withValueName p v) c) x = false ∧ x ≠ d1 := by
      intro x hx
      have hxd : x ≠ withValueName p v := fun hxe => hdm (hxe ▸ hx)
      rw [isFile, fsGet_set, if_neg hxd]
      exact hf' x hx
    have hd1' : isFile (fsSet fs (withValueName p v) c) d1 = true := by
      rw [isFile, fsGet_set, if_neg (Ne.symm hdd1), hc]
      rfl
    have IH := renameLoop_copy avoid p d1 vs
      (fsSet fs (withValueName p v) c) m hnd' hf1 hd1'
    have hunfold : renameLoop avoid p (v :: vs) (some d1) fs m
        = ((renameLoop avoid p vs (some d1)
              (fsSet fs (withValueName p v) c) m).1,
           (renameLoop avoid p vs (some d1)
              (fsSet fs (withValueName p v) c) m).2.1,
           RAct.copied d1 (withValueName p v)
             :: (renameLoop avoid p vs (some d1)
                  (fsSet fs (withValueName p v) c) m).2.2) := by
      rw [renameLoop_cons]
      simp only [Option.getD_some, Option.isNone_some]
      rw [destination_not_file avoid fs m _ hdf]
      simp [Ne.symm hdd1, hdf, fsCopy, hc]
    rw [hunfold, hcons]
    refine ⟨?_, IH.2.1, ?_⟩
    · simp only [List.map_cons]
      rw [IH.1]
    · intro q
      rw [IH.2.2 q]
      have hgd1 : fsGet (fsSet fs (withValueName p v) c) d1 = fsGet fs d1 := by
        rw [fsGet_set, if_neg (Ne.symm hdd1)]
      by_cases hqt : q ∈ mkDests p vs
      · rw [if_pos hqt, if_pos (List.mem_cons_of_mem _ hqt), hgd1]
      · rw [if_neg hqt, fsGet_set]
        by_cases hqd : q = withValueName p v
        · rw [if_pos hqd, if_pos (by rw [hqd]; exact List.mem_cons_self _ _), hc]
        · rw [if_neg hqd, if_neg (by simp [hqd, hqt])]

/-- C3: for a file with at least two decoded barcodes (destinations fresh and
distinct), the first barcode value renames the source to its destination and
every subsequent barcode value copies the first destination — not the
original source — to its own destination; the original path ends with no
file, and every destination holds the original content. -/
theorem rename_first_copy_rest (avoid : Bool) (fs : FS) (m : SuffixMap)
    (p : FPath) (strat : Option String) (b1 b2 : Barcode) (bs : List Barcode)
    (hnd : (mkDests p ((b1 :: b2 :: bs).map (fun b => sanitize b.data))).Nodup)
    (hfresh : ∀ d ∈ mkDests p ((b1 :: b2 :: bs).map (fun b => sanitize b.data)),
        isFile fs d = false ∧ d ≠ p)
    (hsrc : isFile fs p = true) :
    (renameResult avoid fs m p (strat, b1 :: b2 :: bs)).2.2
        = RAct.renamed p (withValueName p (sanitize b1.data))
            :: (mkDests p ((b2 :: bs).map (fun b => sanitize b.data))).map
                (RAct.copied (withValueName p (sanitize b1.data)))
    ∧ (renameResult avoid fs m p (strat, b1 :: b2 :: bs)).2.1 = m
    ∧ fsGet (renameResult avoid fs m p (strat, b1 :: b2 :: bs)).1 p = none
    ∧ ∀ d ∈ mkDests p ((b1 :: b2 :: bs).map (fun b => sanitize b.data)),
        fsGet (renameResult avoid fs m p (strat, b1 :: b2 :: bs)).1 d
          = fsGet fs p := by
  have hcons : mkDests p ((b1 :: b2 :: bs).map (fun b => sanitize b.data))
      = withValueName p (sanitize b1.data)
          :: mkDests p ((b2 :: bs).map (fun b => sanitize b.data)) := rfl
  rw [hcons] at hnd hfresh
  obtain ⟨hdm, hnd'⟩ := List.nodup_cons.1 hnd
  obtain ⟨hd1f, hd1p⟩ := hfresh _ (List.mem_cons_self _ _)
  have hfresh' : ∀ x ∈ mkDests p ((b2 :: bs).map (fun b => sanitize b.data)),
      isFile fs x = false ∧ x ≠ p :=
    fun x hx => hfresh x (List.mem_cons_of_mem _ hx)
  obtain ⟨c, hc⟩ : ∃ c, fsGet fs p = some c := by
    cases hcase : fsGet fs p with
    | none => simp [isFile, hcase] at hsrc
    | some c => exact ⟨c, rfl⟩
  have hfs1 : fsRename fs p (withValueName p (sanitize b1.data))
      = fsSet (fsDel fs p) (withValueName p (sanitize b1.data)) c := by
    rw [fsRename, hc]
  have hf1 : ∀ x ∈ mkDests p ((b2 :: bs).map (fun b => sanitize b.data)),
      isFile (fsSet (fsDel fs p) (withValueName p (sanitize b1.data)) c) x = false
        ∧ x ≠ withValueName p (sanitize b1.data) := by
    intro x hx
    have hxd : x ≠ withValueName p (sanitize b1.data) :=
      fun hxe => hdm (hxe ▸ hx)
    have hxp : x ≠ p := (hfresh' x hx).2
    refine ⟨?_, hxd⟩
    rw [isFile, fsGet_set, if_neg hxd, fsGet_del, if_neg hxp]
    exact (hfresh' x hx).1
  have hd1' : isFile (fsSet (fsDel fs p) (withValueName p (sanitize b1.data)) c)
      (withValueName p (sanitize b1.data)) = true := by
    rw [isFile, fsGet_set, if_pos rfl]
    rfl
  have IH := renameLoop_copy avoid p (withValueName p (sanitize b1.data))
    ((b2 :: bs).map (fun b => sanitize b.data))
    (fsSet (fsDel fs p) (withValueName p (sanitize b1.data)) c) m hnd' hf1 hd1'
  have hunfold : renameResult avoid fs m p (strat, b1 :: b2 :: bs)
      = ((renameLoop avoid p ((b2 :: bs).map (fun b => sanitize b.data))
            (some (withValueName p (sanitize b1.data)))
            (fsSet (fsDel fs p) (withValueName p (sanitize b1.data)) c) m).1,
         (renameLoop avoid p ((b2 :: bs).map (fun b => sanitize b.data))
            (some (withValueName p (sanitize b1.data)))
            (fsSet (fsDel fs p) (withValueName p (sanitize b1.data)) c) m).2.1,
         RAct.renamed p (withValueName p (sanitize b1.data))
           :: (renameLoop avoid p ((b2 :: bs).map (fun b => sanitize b.data))
                (some (withValueName p (sanitize b1.data)))
                (fsSet (fsDel fs p) (withValueName p (sanitize b1.data)) c) m).2.2) := by
    rw [renameResult, if_neg (by simp), List.map_cons, renameLoop_cons]
    simp only [Option.getD_none, Option.isNone_none]
    rw [destination_not_file avoid fs m _ hd1f]
    simp [Ne.symm hd1p, hd1f, hfs1]
  rw [hunfold]
  have hgd1 : fsGet (fsSet (fsDel fs p) (withValueName p (sanitize b1.data)) c)
      (withValueName p (sanitize b1.data)) = some c := by
    rw [fsGet_set, if_pos rfl]
  refine ⟨?_, IH.2.1, ?_, ?_⟩
  · rw [IH.1]
  · rw [IH.2.2 p]
    have hpt : p ∉ mkDests p ((b2 :: bs).map (fun b => sanitize b.data)) :=
      fun hp => (hfresh' p hp).2 rfl
    rw [if_neg hpt, fsGet_set, if_neg (Ne.symm hd1p), fsGet_del, if_pos rfl]
  · intro d hd
    rw [hcons] at hd
    rcases List.mem_cons.1 hd with rfl | hdt
    · rw [IH.2.2 _, if_neg hdm, hgd1, hc]
    · rw [IH.2.2 d, if_pos hdt, hgd1, hc]

theorem rename_first_copy_rest_wit :
    (renameResult true [(⟨"d", "orig", ".png"⟩, 7)] suffixInit ⟨"d", "orig", ".png"⟩
        (some "roi", [Barcode.mk "code" "A", Barcode.mk "code" "B"])).2.2
      = [RAct.renamed ⟨"d", "orig", ".png"⟩ ⟨"d", "A", ".png"⟩,
         RAct.copied ⟨"d", "A", ".png"⟩ ⟨"d", "B", ".png"⟩]
    ∧ fsGet (renameResult true [(⟨"d", "orig", ".png"⟩, 7)] suffixInit
        ⟨"d", "orig", ".png"⟩
        (some "roi", [Barcode.mk "code" "A", Barcode.mk "code" "B"])).1
        ⟨"d", "orig", ".png"⟩ = none
    ∧ fsGet (renameResult true [(⟨"d", "orig", ".png"⟩, 7)] suffixInit
        ⟨"d", "orig", ".png"⟩
        (some "roi", [Barcode.mk "code" "A", Barcode.mk "code" "B"])).1
        ⟨"d", "A", ".png"⟩ = some 7
    ∧ fsGet (renameResult true [(⟨"d", "orig", ".png"⟩, 7)] suffixInit
        ⟨"d", "orig", ".png"⟩
        (some "roi", [Barcode.mk "code" "A", Barcode.mk "code" "B"])).1
        ⟨"d", "B", ".png"⟩ = some 7 := by
  have h := rename_first_copy_rest true [(⟨"d", "orig", ".png"⟩, 7)] suffixInit
    ⟨"d", "orig", ".png"⟩ (some "roi") (Barcode.mk "code" "A")
    (Barcode.mk "code" "B") [] (by decide) (by decide) (by decide)
  exact ⟨h.1.trans rfl, h.2.2.1,
    (h.2.2.2 _ (by decide)).trans rfl, (h.2.2.2 _ (by decide)).trans rfl⟩

theorem fsGet_eq_none_of_not_file (fs : FS) (p : FPath)
    (h : isFile fs p = false) : fsGet fs p = none := by
  cases hc : fsGet fs p with
  | none => rfl
  | some c => rw [isFile, hc] at h; simp at h

/-- C4: with collision avoidance on, a fresh rename sink processing two files
whose sole barcode sanitizes to the same value `v` (extension `e`): the first
is renamed to `v + e`; the second finds that name taken, draws suffix 1
(seeded on first use) and is renamed to `v + "-1" + e`; the counter for that
base name advances to 2 and persists, so suffix 1 is never reused. -/
theorem collision_suffix_counter (fs : FS) (dn v e s1 s2 : String)
    (strat1 strat2 : Option String) (b1 b2 : Barcode)
    (hv1 : sanitize b1.data = v) (hv2 : sanitize b2.data = v)
    (hp1 : isFile fs ⟨dn, s1, e⟩ = true) (hp2 : isFile fs ⟨dn, s2, e⟩ = true)
    (hd0 : isFile fs ⟨dn, v, e⟩ = false)
    (hd1 : isFile fs ⟨dn, v ++ "-" ++ toString 1, e⟩ = false)
    (h0p1 : (⟨dn, v, e⟩ : FPath) ≠ ⟨dn, s1, e⟩)
    (h0p2 : (⟨dn, v, e⟩ : FPath) ≠ ⟨dn, s2, e⟩)
    (h1p2 : (⟨dn, v ++ "-" ++ toString 1, e⟩ : FPath) ≠ ⟨dn, s2, e⟩)
    (hp12 : (⟨dn, s1, e⟩ : FPath) ≠ ⟨dn, s2, e⟩) :
    (renameResult true fs suffixInit ⟨dn, s1, e⟩ (strat1, [b1])).2.2
        = [RAct.renamed ⟨dn, s1, e⟩ ⟨dn, v, e⟩]
    ∧ (renameResult true fs suffixInit ⟨dn, s1, e⟩ (strat1, [b1])).2.1
        = suffixInit
    ∧ (renameResult true
          (renameResult true fs suffixInit ⟨dn, s1, e⟩ (strat1, [b1])).1
          (renameResult true fs suffixInit ⟨dn, s1, e⟩ (strat1, [b1])).2.1
          ⟨dn, s2, e⟩ (strat2, [b2])).2.2
        = [RAct.renamed ⟨dn, s2, e⟩ ⟨dn, v ++ "-" ++ toString 1, e⟩]
    ∧ (renameResult true
          (renameResult true fs suffixInit ⟨dn, s1, e⟩ (strat1, [b1])).1
          (renameResult true fs suffixInit ⟨dn, s1, e⟩ (strat1, [b1])).2.1
          ⟨dn, s2, e⟩ (strat2, [b2])).2.1 (FPath.name ⟨dn, v, e⟩) = 2
    ∧ fsGet (renameResult true
          (renameResult true fs suffixInit ⟨dn, s1, e⟩ (strat1, [b1])).1
          (renameResult true fs suffixInit ⟨dn, s1, e⟩ (strat1, [b1])).2.1
          ⟨dn, s2, e⟩ (strat2, [b2])).1 ⟨dn, v, e⟩ = fsGet fs ⟨dn, s1, e⟩
    ∧ fsGet (renameResult true
          (renameResult true fs suffixInit ⟨dn, s1, e⟩ (strat1, [b1])).1
          (renameResult true fs suffixInit ⟨dn, s1, e⟩ (strat1, [b1])).2.1
          ⟨dn, s2, e⟩ (strat2, [b2])).1 ⟨dn, v ++ "-" ++ toString 1, e⟩
        = fsGet fs ⟨dn, s2, e⟩ := by
  obtain ⟨c1, hc1⟩ : ∃ c, fsGet fs ⟨dn, s1, e⟩ = some c := by
    cases hcase : fsGet fs ⟨dn, s1, e⟩ with
    | none => rw [isFile, hcase] at hp1; simp at hp1
    | some c => exact ⟨c, rfl⟩
  obtain ⟨c2, hc2⟩ : ∃ c, fsGet fs ⟨dn, s2, e⟩ = some c := by
    cases hcase : fsGet fs ⟨dn, s2, e⟩ with
    | none => rw [isFile, hcase] at hp2; simp at hp2
    | some c => exact ⟨c, rfl⟩
  have hstem : v ++ "-" ++ toString 1 ≠ v := by
    intro h
    have hlen := congrArg String.length h
    rw [String.length_append, String.length_append,
      show ("-" : String).length = 1 from rfl,
      show (toString (1 : Nat)).length = 1 from rfl] at hlen
    omega
  have hd1d0 : (⟨dn, v ++ "-" ++ toString 1, e⟩ : FPath) ≠ ⟨dn, v, e⟩ :=
    fun h => hstem (congrArg FPath.stem h)
  have h1 : renameResult true fs suffixInit ⟨dn, s1, e⟩ (strat1, [b1])
      = (fsSet (fsDel fs ⟨dn, s1, e⟩) ⟨dn, v, e⟩ c1, suffixInit,
         [RAct.renamed ⟨dn, s1, e⟩ ⟨dn, v, e⟩]) := by
    rw [renameResult, if_neg (by simp), List.map_cons, List.map_nil,
      renameLoop_cons]
    simp only [Option.getD_none, Option.isNone_none, hv1]
    rw [show withValueName ⟨dn, s1, e⟩ v = ⟨dn, v, e⟩ from rfl,
      destination_not_file true fs suffixInit _ hd0]
    simp [Ne.symm h0p1, hd0, fsRename, hc1, renameLoop]
  have hfile_d0 : isFile (fsSet (fsDel fs ⟨dn, s1, e⟩) ⟨dn, v, e⟩ c1)
      ⟨dn, v, e⟩ = true := by
    rw [isFile, fsGet_set, if_pos rfl]
    rfl
  have hfile_d1 : isFile (fsSet (fsDel fs ⟨dn, s1, e⟩) ⟨dn, v, e⟩ c1)
      ⟨dn, v ++ "-" ++ toString 1, e⟩ = false := by
    rw [isFile, fsGet_set, if_neg hd1d0, fsGet_del]
    by_cases h : (⟨dn, v ++ "-" ++ toString 1, e⟩ : FPath) = ⟨dn, s1, e⟩
    · rw [if_pos h]; rfl
    · rw [if_neg h, fsGet_eq_none_of_not_file fs _ hd1]; rfl
  have hdest : destination true (fsSet (fsDel fs ⟨dn, s1, e⟩) ⟨dn, v, e⟩ c1)
      suffixInit ⟨dn, v, e⟩
      = (⟨dn, v ++ "-" ++ toString 1, e⟩,
         fun k => if k = FPath.name ⟨dn, v, e⟩ then 2 else suffixInit k) := by
    rw [destination_one_collision _ _ _ hfile_d0
      (by rw [show suffixedName ⟨dn, v, e⟩ (suffixInit (FPath.name ⟨dn, v, e⟩))
            = ⟨dn, v ++ "-" ++ toString 1, e⟩ from rfl]
          exact hfile_d1)]
    rfl
  have hgp2 : fsGet (fsSet (fsDel fs ⟨dn, s1, e⟩) ⟨dn, v, e⟩ c1) ⟨dn, s2, e⟩
      = some c2 := by
    rw [fsGet_set, if_neg (Ne.symm h0p2), fsGet_del, if_neg (Ne.symm hp12), hc2]
  have h2 : renameResult true
      (renameResult true fs suffixInit ⟨dn, s1, e⟩ (strat1, [b1])).1
      (renameResult true fs suffixInit ⟨dn, s1, e⟩ (strat1, [b1])).2.1
      ⟨dn, s2, e⟩ (strat2, [b2])
      = (fsSet (fsDel (fsSet (fsDel fs ⟨dn, s1, e⟩) ⟨dn, v, e⟩ c1) ⟨dn, s2, e⟩)
           ⟨dn, v ++ "-" ++ toString 1, e⟩ c2,
         fun k => if k = FPath.name ⟨dn, v, e⟩ then 2 else suffixInit k,
         [RAct.renamed ⟨dn, s2, e⟩ ⟨dn, v ++ "-" ++ toString 1, e⟩]) := by
    simp only [h1]
    rw [renameResult, if_neg (by simp), List.map_cons, List.map_nil,
      renameLoop_cons]
    simp only [Option.getD_none, Option.isNone_none, hv2]
    rw [show withValueName ⟨dn, s2, e⟩ v = ⟨dn, v, e⟩ from rfl, hdest]
    simp [Ne.symm h1p2, hfile_d1, fsRename, hgp2, renameLoop]
  refine ⟨?_, ?_, ?_, ?_, ?_, ?_⟩
  · rw [h1]
  · rw [h1]
  · rw [h2]
  · rw [h2]
    simp
  · rw [h2, fsGet_set, if_neg (Ne.symm hd1d0), fsGet_del, if_neg h0p2,
      fsGet_set, if_pos rfl, hc1]
  · rw [h2, fsGet_set, if_pos rfl, hc2]

theorem collision_suffix_counter_wit :
    (renameResult true
        (renameResult true [(⟨"d", "f1", ".jpg"⟩, 1), (⟨"d", "f2", ".jpg"⟩, 2)]
          suffixInit ⟨"d", "f1", ".jpg"⟩
          (some "roi", [Barcode.mk "code" "X"])).1
        (renameResult true [(⟨"d", "f1", ".jpg"⟩, 1), (⟨"d", "f2", ".jpg"⟩, 2)]
          suffixInit ⟨"d", "f1", ".jpg"⟩
          (some "roi", [Barcode.mk "code" "X"])).2.1
        ⟨"d", "f2", ".jpg"⟩ (some "roi", [Barcode.mk "code" "X"])).2.2
      = [RAct.renamed ⟨"d", "f2", ".jpg"⟩ ⟨"d", "X-1", ".jpg"⟩]
    ∧ (renameResult true [(⟨"d", "f1", ".jpg"⟩, 1), (⟨"d", "f2", ".jpg"⟩, 2)]
        suffixInit ⟨"d", "f1", ".jpg"⟩
        (some "roi", [Barcode.mk "code" "X"])).2.2
      = [RAct.renamed ⟨"d", "f1", ".jpg"⟩ ⟨"d", "X", ".jpg"⟩] := by
  have h := collision_suffix_counter
    [(⟨"d", "f1", ".jpg"⟩, 1), (⟨"d", "f2", ".jpg"⟩, 2)] "d" "X" ".jpg" "f1" "f2"
    (some "roi") (some "roi") (Barcode.mk "code" "X") (Barcode.mk "code" "X")
    (by decide) (by decide) (by decide) (by decide) (by decide) (by decide)
    (by decide) (by decide) (by decide) (by decide)
  exact ⟨h.2.2.1.trans (by decide), h.1.trans (by decide)⟩

/-- C7: the region decoder's output equals the concatenation, in
candidate-rectangle order, of the engine-returned symbol groups, each group
wrapped as `Barcode`s in the order the engine returned them. -/
theorem roi_output_is_ordered_concat (cvt : Img → Grey) (sharpen : Grey → Grey)
    (d : Decoder) :
    (computeBarcodes cvt sharpen d).1 =
      (d.candidates.map (fun rect =>
        ((candidateDecode sharpen d.engine (greyOf cvt d.img) rect).1).map
          (fun b => Barcode.mk b.type b.data))).flatten := by
  simpa using computeFold_fst sharpen d.engine (greyOf cvt d.img) d.candidates ([], 0)

end Gouda
